import Mathlib

/-!
# Verification of the enigma-jscrypto core

Shallow embedding of the repository's core components:

* `src/lib/cipher/asymmetric/ec/ec.js` — the EC hybrid scheme
  (`getEncryptCredentials` / `getDecryptCredential`, `verify`, `_XOR`,
  `_computeSecret`);
* `src/lib/enigma/identity.js` — identity generation, loading, export;
* `src/lib/enigma/message.js` — the message envelope protocol
  (write / sign / encrypt / done / read / decrypt / verify).

Modelling conventions:

* JavaScript `ArrayBuffer`s and byte arrays are both modelled as `List Nat`;
  `.length` and `.byteLength` are both `List.length`.  The JS code mixes the
  two representations freely through adapter modules that are not part of the
  repository snapshot, so a uniform byte-sequence view is the faithful
  reading.
* The capability-revocation style of the JS (methods added to and deleted
  from `this` as the state advances) is modelled with explicit boolean
  capability flags in each state record; invoking an absent method is the
  error `"enigma-unavailable-operation"`.
* Randomness (`util.srand`) is passed in as explicit parameters.
* Fixed-contract primitives of the repository that are not in the snapshot
  (the binary serialization codec, the symmetric cipher, hash/MAC/KDF, lzw
  compression, and the low-level curve arithmetic libraries) are modelled
  from the spec; each such definition carries a doc comment that says so.
-/

set_option maxRecDepth 20000

namespace Enigma

/-- Decidable equality for `Except`, so that concrete runs of the fallible
operations can be checked by `decide`. -/
instance instDecEqExcept {ε α : Type} [DecidableEq ε] [DecidableEq α] :
    DecidableEq (Except ε α) := fun x y =>
  match x, y with
  | .error a, .error b =>
    if h : a = b then isTrue (by rw [h])
    else isFalse (fun hc => by injection hc; contradiction)
  | .ok a, .ok b =>
    if h : a = b then isTrue (by rw [h])
    else isFalse (fun hc => by injection hc; contradiction)
  | .error _, .ok _ => isFalse (fun hc => Except.noConfusion hc)
  | .ok _, .error _ => isFalse (fun hc => Except.noConfusion hc)

/-! ## Byte sequences and numeric encodings -/

/-- Big-endian value of a byte list (`bigi.fromByteArrayUnsigned`):
fold each byte into an accumulator as `acc * 256 + byte`. -/
def bytesNat (l : List Nat) : Nat :=
  l.foldl (fun a b => a * 256 + b) 0

/-- Fuel-driven digit extraction for `natBytes`, structurally recursive on
the fuel so that concrete values reduce inside the kernel; the fuel is
immaterial as long as it dominates the argument. -/
def natBytesF : Nat → Nat → List Nat
  | _, 0 => []
  | 0, _+1 => []
  | f+1, m+1 => natBytesF f ((m+1) / 256) ++ [(m+1) % 256]

/-- Minimal big-endian byte representation of a natural number
(the `getEncoded` direction of the big-integer library). -/
def natBytes (n : Nat) : List Nat :=
  natBytesF n n

lemma natBytesF_fuel : ∀ (n f g : Nat), n ≤ f → n ≤ g →
    natBytesF f n = natBytesF g n := by
  intro n
  induction n using Nat.strong_induction_on with
  | _ n ih =>
    intro f g hf hg
    cases n with
    | zero => cases f <;> cases g <;> rfl
    | succ m =>
      cases f with
      | zero => omega
      | succ fp =>
        cases g with
        | zero => omega
        | succ gp =>
          have hq : (m+1) / 256 < m + 1 := Nat.div_lt_self (by omega) (by omega)
          simp only [natBytesF]
          rw [ih ((m+1) / 256) hq fp gp (by omega) (by omega)]

lemma natBytes_zero : natBytes 0 = [] := rfl

lemma natBytes_succ (m : Nat) :
    natBytes (m+1) = natBytes ((m+1) / 256) ++ [(m+1) % 256] := by
  have hq : (m+1) / 256 < m + 1 := Nat.div_lt_self (by omega) (by omega)
  show natBytesF (m+1) (m+1) = _
  rw [natBytesF, natBytes, natBytesF_fuel ((m+1) / 256) m ((m+1) / 256) (by omega) (by omega)]

/-- Injective encoding of a byte list into one natural number, used by the
idealized MAC model below. -/
def encodeList (l : List Nat) : Nat :=
  l.foldr (fun b acc => Nat.pair b acc + 1) 0

/-- `w`-byte big-endian encoding of a length field (truncating above
`256 ^ w`, as a fixed-width field does). -/
def encLen : Nat → Nat → List Nat
  | 0, _ => []
  | w+1, n => encLen w (n / 256) ++ [n % 256]

/-- Split a list after exactly `n` elements, failing when the list is too
short (the truncation check of the binary codec). -/
def splitAtOpt (n : Nat) (l : List Nat) : Option (List Nat × List Nat) :=
  if n ≤ l.length then some (l.take n, l.drop n) else none

/-- Read a `w`-byte big-endian length field. -/
def decNum (w : Nat) (l : List Nat) : Option (Nat × List Nat) :=
  (splitAtOpt w l).map (fun p => (bytesNat p.1, p.2))

/-- The 2-byte little-endian length prefix written through `Uint16Array`
in `getEncryptCredentials`. -/
def encU16LE (n : Nat) : List Nat :=
  [n % 256, n / 256 % 256]

/-- Reading a 2-byte buffer through `new Uint16Array(...)` (little-endian). -/
def decU16LE (l : List Nat) : Nat :=
  match l with
  | a :: b :: _ => a + 256 * b
  | [a] => a
  | [] => 0

/-- `util.buffer.xor`: pointwise XOR of two byte streams. -/
def xorBytes (a b : List Nat) : List Nat :=
  List.zipWith (fun x y => x ^^^ y) a b

/-! ## Modelled fixed-contract primitives -/

/-- Modelled from the spec: `hash().mac(message, key)` of the missing hash
module (`identityId = MAC(key = subject, message = publicKey)`).  The MAC is
idealized as a collision-free (injective) function of the pair, packed into
a single output cell; `fingerprint` (the first 10 bytes of the MAC) is then
the whole output. -/
def mac (msg key : List Nat) : List Nat :=
  [Nat.pair (encodeList msg) (encodeList key)]

/-- Modelled from the spec: the BLAKE2s-based `pbkdf2` keystream stretch of
`_XOR` in ec.js (missing hash module).  Fixed contract: a deterministic byte
stream of exactly the requested length, depending on shared secret and
salt. -/
def kdfStream (secret salt : List Nat) (len : Nat) : List Nat :=
  (List.range len).map (fun i => (bytesNat secret + bytesNat salt + i) % 256)

/-- Modelled from the spec: the symmetric cipher (`cipher.symmetric`),
a fixed-contract primitive with `decrypt(key, encrypt(key, pt)) = pt` that
fails on a mismatched key. -/
def symEncrypt (key pt : List Nat) : List Nat :=
  key ++ pt

/-- Modelled from the spec: symmetric decryption; fails (throws, here
`none`) when the ciphertext was not produced under this key. -/
def symDecrypt (key ct : List Nat) : Option (List Nat) :=
  if ct.take key.length = key ∧ key.length ≤ ct.length then some (ct.drop key.length) else none

/-- Modelled from the spec: `util.compress` (lzw), fixed-contract
compression. -/
def compress (l : List Nat) : List Nat :=
  77 :: l

/-- Modelled from the spec: `util.decompress`, failing on an input that is
not a compressor output. -/
def decompress (l : List Nat) : Option (List Nat) :=
  match l with
  | 77 :: rest => some rest
  | _ => none

/-! ## EC primitive (src/lib/cipher/asymmetric/ec/ec.js) -/

/-- Modelled from the spec: the uncompressed curve-point encoding
`(G * d).getEncoded(false)` of the missing ecurve/bigi libraries.  The group
is idealized as the scalars themselves (pointEncode of scalar `d` is a type
byte `4` followed by the big-endian bytes of `d`), which keeps the one
algebraic law the source relies on: ECDH commutativity. -/
def pubKeyOf (d : Nat) : List Nat :=
  4 :: natBytes d

/-- `_computeSecret` of ec.js: decode the other party's point, multiply by
this instance's private scalar and return the encoding minus its type byte.
With the idealized group this is `natBytes (d * decode pub)`. -/
def computeSecret (d : Nat) (pubArr : List Nat) : List Nat :=
  natBytes (d * bytesNat (pubArr.drop 1))

/-- Modelled from the spec: ECDSA signing of the missing ecdsa.js; an
injective function of the private scalar and the digest. -/
def ecSign (s : Nat) (digest : List Nat) : List Nat :=
  [Nat.pair s (encodeList digest)]

/-- Modelled from the spec: the raw ECDSA verification of the missing
ecdsa.js.  A signature validates exactly when it was produced by the
matching private scalar over this digest; a malformed encoding (here: the
empty signature) makes the library throw, modelled as `.error`. -/
def ecdsaVerifyRaw (pub digest sig : List Nat) : Except String Bool :=
  if sig = [] then .error "dersig-parse-error"
  else .ok (decide (sig = ecSign (bytesNat (pub.drop 1)) digest))

/-- `verify` of ec.js: run the library verification, catching any exception
and returning `false` for it. -/
def ecVerifyWrap (pub digest sig : List Nat) : Bool :=
  match ecdsaVerifyRaw pub digest sig with
  | .error _ => false
  | .ok b => b

/-- `getEncryptCredentials` of ec.js: make a temporary EC instance from the
fresh random credential, ECDH with this instance's public key, stretch into
a keystream salted with the temporary public key, XOR, and pack as
`[2-byte LE length][temp public key][xor stream]`. -/
def ecEncryptCred (pub tempCredential dataBuf : List Nat) : List Nat :=
  let t := bytesNat tempCredential
  let tempPublicKey := pubKeyOf t
  let sharedsecret := computeSecret t pub
  let resultStream := xorBytes dataBuf (kdfStream sharedsecret tempPublicKey dataBuf.length)
  encU16LE tempPublicKey.length ++ tempPublicKey ++ resultStream

/-- `getDecryptCredential` of ec.js: require more than 2 bytes, read the
2-byte length prefix, reject when the remaining buffer is not strictly
longer than the declared key length, split off the temporary public key,
recompute the shared secret with this instance's private scalar, and XOR
the tail against the regenerated keystream. -/
def ecDecryptCred (priv : Nat) (dataBuf : List Nat) : Except String (List Nat) :=
  if dataBuf.length ≤ 2 then .error "invalid-parameter"
  else
    let lenBuf := dataBuf.take 2
    let rest := dataBuf.drop 2
    let splitLen := decU16LE lenBuf
    if rest.length ≤ splitLen then .error "invalid-ciphertext"
    else
      let tempPublicKey := rest.take splitLen
      let resultStream := rest.drop splitLen
      let sharedsecret := computeSecret priv tempPublicKey
      .ok (xorBytes resultStream (kdfStream sharedsecret tempPublicKey resultStream.length))

/-- The key-holding state of an EC instance: exactly one of
public-only or private+derived-public (`Uninitialized` is before
`setPrivateKey`/`setPublicKey`, which can each run only once). -/
structure ECState where
  priv : Option Nat
  pub : List Nat
deriving DecidableEq

/-- `setPrivateKey`: scalar from the byte array, public key derived from
it. -/
def ecFromPrivate (privArr : List Nat) : ECState :=
  ⟨some (bytesNat privArr), pubKeyOf (bytesNat privArr)⟩

/-- `setPublicKey`: public-only instance. -/
def ecFromPublic (pubArr : List Nat) : ECState :=
  ⟨none, pubArr⟩

/-- `getEncryptCredentials` as an instance method (works with a public
key). -/
def ecStateEncrypt (st : ECState) (tempCredential dataBuf : List Nat) : List Nat :=
  ecEncryptCred st.pub tempCredential dataBuf

/-- `getDecryptCredential` as an instance method: only present on a
private-key instance. -/
def ecStateDecrypt (st : ECState) (dataBuf : List Nat) : Except String (List Nat) :=
  match st.priv with
  | none => .error "enigma-unavailable-operation"
  | some s => ecDecryptCred s dataBuf

/-! ## Binary serialization codec

Modelled from the spec (§6): a schema-driven codec with `constant` magic
bytes validated on decode, `enum` fields encoded by index, `shortArray` /
`array` item lists with 1- / 2-byte counts, and `shortBinary` / `binary` /
`longBinary` byte strings with 1- / 2- / 4-byte length fields.  Decoding
fails on magic mismatch, truncation, enum value out of range, oversized
counts, or trailing bytes.  The codec itself is an external fixed-contract
dependency of the repository (util/serialize), so only internal
self-consistency is required. -/

/-- Modelled from the spec: encode one list item as a 4-byte length prefix
followed by the item. -/
def encItem (b : List Nat) : List Nat :=
  encLen 4 b.length ++ b

/-- Modelled from the spec: encode the items of an `array`/`shortArray`
field (the count field is written separately). -/
def encItems (l : List (List Nat)) : List Nat :=
  l.foldr (fun b acc => encItem b ++ acc) []

/-- Modelled from the spec: decode `n` length-prefixed items. -/
def decItems : Nat → List Nat → Option (List (List Nat) × List Nat)
  | 0, l => some ([], l)
  | n+1, l =>
    match decNum 4 l with
    | none => none
    | some (len, l1) =>
      match splitAtOpt len l1 with
      | none => none
      | some (b, l2) =>
        match decItems n l2 with
        | none => none
        | some (rest, l3) => some (b :: rest, l3)

/-- The `compression` enum of the envelope template:
`['enum', false, 'lzw']`. -/
inductive Compression where
  | raw
  | lzw
deriving DecidableEq

/-- Enum index of a `Compression` value (`false` is index 0, `'lzw'` is
index 1). -/
def Compression.idx : Compression → Nat
  | .raw => 0
  | .lzw => 1

/-- The payload record of message.js (`templatePayload`): magic `[69,112]`,
`signers` (shortArray), `signatures` (array), `content` (longBinary). -/
structure PayloadRec where
  signers : List (List Nat)
  signatures : List (List Nat)
  content : List Nat
deriving DecidableEq

/-- The envelope record of message.js (`templateEnvelope`): magic
`[69,67]`, `compression` (enum), `receivers` (shortArray), `decryptors`
(array), `payload` (longBinary). -/
structure EnvelopeRec where
  compression : Compression
  receivers : List (List Nat)
  decryptors : List (List Nat)
  payload : List Nat
deriving DecidableEq

/-- The identity record of identity.js (`template`): magic `[69,73]`,
`subject` (shortBinary), `algorithm` (enum with the single value
`'NECRAC128'`), `public` (binary), `secret` (shortBinary), `signature`
(binary).  The decoded `secret` is wrapped in `Option` to model the JS
record field tested against `null` by `canLoadPrivate`; the codec always
produces `some` (a possibly empty buffer). -/
structure IdentityRec where
  subject : List Nat
  algorithm : Nat
  publicK : List Nat
  secret : Option (List Nat)
  signature : List Nat
deriving DecidableEq

/-- Modelled from the spec: serialize a payload record. -/
def serializePayload (r : PayloadRec) : List Nat :=
  [69, 112]
    ++ encLen 1 r.signers.length ++ encItems r.signers
    ++ encLen 2 r.signatures.length ++ encItems r.signatures
    ++ encLen 4 r.content.length ++ r.content

/-- Modelled from the spec: deserialize a payload record, failing on any
malformation and on trailing bytes. -/
def deserializePayload (buf : List Nat) : Option PayloadRec :=
  match splitAtOpt 2 buf with
  | none => none
  | some (m, r0) =>
    if m = [69, 112] then
      match decNum 1 r0 with
      | none => none
      | some (n1, r1) =>
        match decItems n1 r1 with
        | none => none
        | some (ss, r2) =>
          match decNum 2 r2 with
          | none => none
          | some (n2, r3) =>
            match decItems n2 r3 with
            | none => none
            | some (sg, r4) =>
              match decNum 4 r4 with
              | none => none
              | some (nc, r5) =>
                match splitAtOpt nc r5 with
                | none => none
                | some (c, r6) =>
                  if r6 = [] then some ⟨ss, sg, c⟩ else none
    else none

/-- Modelled from the spec: serialize an envelope record. -/
def serializeEnvelope (r : EnvelopeRec) : List Nat :=
  [69, 67]
    ++ encLen 1 r.compression.idx
    ++ encLen 1 r.receivers.length ++ encItems r.receivers
    ++ encLen 2 r.decryptors.length ++ encItems r.decryptors
    ++ encLen 4 r.payload.length ++ r.payload

/-- Modelled from the spec: decode the `compression` enum by index. -/
def decCompression (n : Nat) : Option Compression :=
  match n with
  | 0 => some .raw
  | 1 => some .lzw
  | _ => none

/-- Modelled from the spec: deserialize an envelope record, failing on any
malformation and on trailing bytes. -/
def deserializeEnvelope (buf : List Nat) : Option EnvelopeRec :=
  match splitAtOpt 2 buf with
  | none => none
  | some (m, r0) =>
    if m = [69, 67] then
      match decNum 1 r0 with
      | none => none
      | some (ci, r1) =>
        match decCompression ci with
        | none => none
        | some comp =>
          match decNum 1 r1 with
          | none => none
          | some (n1, r2) =>
            match decItems n1 r2 with
            | none => none
            | some (rc, r3) =>
              match decNum 2 r3 with
              | none => none
              | some (n2, r4) =>
                match decItems n2 r4 with
                | none => none
                | some (dc, r5) =>
                  match decNum 4 r5 with
                  | none => none
                  | some (np, r6) =>
                    match splitAtOpt np r6 with
                    | none => none
                    | some (p, r7) =>
                      if r7 = [] then some ⟨comp, rc, dc, p⟩ else none
    else none

/-- Modelled from the spec: serialize an identity record (the `secret`
field is written as the stored buffer, empty when absent). -/
def serializeIdentity (r : IdentityRec) : List Nat :=
  [69, 73]
    ++ encLen 1 r.subject.length ++ r.subject
    ++ encLen 1 r.algorithm
    ++ encLen 2 r.publicK.length ++ r.publicK
    ++ encLen 1 (r.secret.getD []).length ++ r.secret.getD []
    ++ encLen 2 r.signature.length ++ r.signature

/-- Modelled from the spec: deserialize an identity record; the
`algorithm` enum has the single value `'NECRAC128'` (index 0). -/
def deserializeIdentity (buf : List Nat) : Option IdentityRec :=
  match splitAtOpt 2 buf with
  | none => none
  | some (m, r0) =>
    if m = [69, 73] then
      match decNum 1 r0 with
      | none => none
      | some (ns, r1) =>
        match splitAtOpt ns r1 with
        | none => none
        | some (subj, r2) =>
          match decNum 1 r2 with
          | none => none
          | some (ai, r3) =>
            if ai < 1 then
              match decNum 2 r3 with
              | none => none
              | some (np, r4) =>
                match splitAtOpt np r4 with
                | none => none
                | some (pk, r5) =>
                  match decNum 1 r5 with
                  | none => none
                  | some (nsec, r6) =>
                    match splitAtOpt nsec r6 with
                    | none => none
                    | some (sec, r7) =>
                      match decNum 2 r7 with
                      | none => none
                      | some (ng, r8) =>
                        match splitAtOpt ng r8 with
                        | none => none
                        | some (sg, r9) =>
                          if r9 = [] then some ⟨subj, ai, pk, some sec, sg⟩ else none
            else none
    else none

/-! ## Identity (src/lib/enigma/identity.js) -/

/-- One character class test of `config.subjectRule`
(`/^[0-9a-z\-_\s]{8,255}$/i`): digits, letters of either case, hyphen,
underscore, or whitespace. -/
def subjectChar (c : Nat) : Bool :=
  (48 ≤ c && c ≤ 57) || (97 ≤ c && c ≤ 122) || (65 ≤ c && c ≤ 90) ||
    c = 45 || c = 95 || c = 32 || c = 9 || c = 10 || c = 11 || c = 12 || c = 13

/-- `config.subjectRule.test`: 8–255 characters, all from the allowed
class. -/
def subjectOk (l : List Nat) : Bool :=
  8 ≤ l.length && l.length ≤ 255 && l.all subjectChar

/-- The name of the single known algorithm
(`config.defaultAlgorithmName`). -/
def defaultAlgorithmName : String := "NECRAC128"

/-- `cipher.asymmetric.definition`: lookup of an algorithm definition by
name; only `'NECRAC128'` exists, everything else yields nothing. -/
def getDef (name : String) : Option Unit :=
  if name = defaultAlgorithmName then some () else none

/-- The initialized state of an identity instance: the module-level
variables `subjectBuf`, `algorithmName`, `secretBuf`, `publicKeyBuf`,
`signatureBuf`, and whether the private half is loaded. -/
structure IdState where
  subjectBuf : List Nat
  algorithmName : String
  secretBuf : List Nat
  publicKeyBuf : List Nat
  signatureBuf : List Nat
  hasPriv : Bool
deriving DecidableEq

/-- `getID` on explicit buffers: `hash().mac(publicKeyBuf, subjectBuf)`. -/
def identityIdOf (publicKeyBuf subjectBuf : List Nat) : List Nat :=
  mac publicKeyBuf subjectBuf

/-- `this.generate(subject, options)`: validate the subject, pick the
algorithm (`options.algorithm || default`), take the fresh random secret
(`util.srand().bytes(secretLength)`, here the explicit `rand` parameter),
derive the public key, and self-sign the identity id.

The unknown-algorithm fallback branch of the source reads
`defaults.algorithmName` and `getDef(algorithmname)` — two identifiers that
do not exist (`config.defaultAlgorithmName` was meant) — so reaching that
branch throws a `ReferenceError` instead of selecting the default
algorithm; the error value below records that crash. -/
def generateM (subject : List Nat) (algOpt : Option String) (rand : List Nat) :
    Except String IdState :=
  if subjectOk subject = false then .error "enigma-invalid-input"
  else
    let algorithmName := algOpt.getD defaultAlgorithmName
    match getDef algorithmName with
    | none => .error "ReferenceError: defaults is not defined"
    | some _ =>
      let s := bytesNat rand
      let publicKeyBuf := pubKeyOf s
      let signatureBuf := ecSign s (identityIdOf publicKeyBuf subject)
      .ok ⟨subject, algorithmName, rand, publicKeyBuf, signatureBuf, true⟩

/-- `loadIdentityBuf(buf, pinkeyBuf)` with a pin key, followed by
`initialize(true)` — i.e. `this.loadPrivate`: deserialize, validate the
subject, unwrap the stored secret under the pin key (failure:
`enigma-invalid-pinkey`), derive the public key from the unwrapped secret
and cross-check it against the stored one (failure:
`enigma-identity-inconsistent`), then verify the self-signature over the
identity id (failure: `enigma-identity-bad-self-signature`). -/
def loadPrivateM (buf pinkey : List Nat) : Except String IdState :=
  match deserializeIdentity buf with
  | none => .error "enigma-invalid-input"
  | some d =>
    if subjectOk d.subject = false then .error "enigma-invalid-input"
    else
      match symDecrypt pinkey (d.secret.getD []) with
      | none => .error "enigma-invalid-pinkey"
      | some sec =>
        if pubKeyOf (bytesNat sec) ≠ d.publicK then .error "enigma-identity-inconsistent"
        else if ecVerifyWrap (pubKeyOf (bytesNat sec))
            (identityIdOf d.publicK d.subject) d.signature = false then
          .error "enigma-identity-bad-self-signature"
        else .ok ⟨d.subject, defaultAlgorithmName, sec, d.publicK, d.signature, true⟩

/-- `this.canLoadPrivate(buf)`: deserialize (failure:
`enigma-invalid-input`) and report `Boolean(null != d['secret'])` — whether
the decoded record carries a secret field at all (the codec always decodes
`shortBinary` to a buffer, possibly empty, never to `null`). -/
def canLoadPrivateM (buf : List Nat) : Except String Bool :=
  match deserializeIdentity buf with
  | none => .error "enigma-invalid-input"
  | some d => .ok d.secret.isSome

/-- `exportPublic()`: serialize the record with a zero-length `secret`
field. -/
def exportPublicM (st : IdState) : List Nat :=
  serializeIdentity ⟨st.subjectBuf, 0, st.publicKeyBuf, some [], st.signatureBuf⟩

/-- `exportPrivate(pinkeyBuf)`: require a pin key of at least 32 bytes and
serialize the record with the secret wrapped under it. -/
def exportPrivateM (st : IdState) (pinkey : List Nat) : Except String (List Nat) :=
  if pinkey.length < 32 then .error "enigma-invalid-pinkey"
  else .ok (serializeIdentity
    ⟨st.subjectBuf, 0, st.publicKeyBuf, some (symEncrypt pinkey st.secretBuf), st.signatureBuf⟩)

/-! ## Identities as used by the message protocol -/

/-- An identity as the message protocol consumes it: the owning subject,
the secret bytes its keypair derives from, and whether the private half is
available (`isPrivate()`). -/
structure Identity where
  subject : List Nat
  secret : List Nat
  isPriv : Bool
deriving DecidableEq

/-- The private scalar of an identity. -/
def iScalar (i : Identity) : Nat :=
  bytesNat i.secret

/-- The public key buffer of an identity. -/
def iPub (i : Identity) : List Nat :=
  pubKeyOf (iScalar i)

/-- `getFingerprint()`: the first 10 bytes of
`hash().mac(publicKeyBuf, subjectBuf)`. -/
def iFp (i : Identity) : List Nat :=
  (identityIdOf (iPub i) i.subject).take 10

/-- `identity.sign(plaintext)`: delegate to the asymmetric cipher. -/
def iSign (i : Identity) (plaintext : List Nat) : List Nat :=
  ecSign (iScalar i) plaintext

/-- `identity.verify(plaintext, signature)`: delegate to the asymmetric
cipher, whose own catch maps any exception to `false`. -/
def iVerify (i : Identity) (plaintext sig : List Nat) : Bool :=
  ecVerifyWrap (iPub i) plaintext sig

/-- `identity.encrypt(plaintext)`: EC hybrid encryption to this identity's
public key, with the ephemeral 128-byte random credential made explicit. -/
def iEncrypt (i : Identity) (tempCredential plaintext : List Nat) : List Nat :=
  ecEncryptCred (iPub i) tempCredential plaintext

/-- `identity.decrypt(ciphertext)`: EC hybrid decryption with this
identity's private scalar. -/
def iDecrypt (i : Identity) (ciphertext : List Nat) : Except String (List Nat) :=
  ecDecryptCred (iScalar i) ciphertext

/-! ## Message envelope protocol (src/lib/enigma/message.js) -/

/-- The write-mode state of a message instance: the module-level variables
plus one boolean per capability-revoked method (`self.sign`,
`self.encrypt`, `self.done`). -/
structure MsgW where
  plaintextBuf : List Nat
  mainKeyBuf : List Nat
  clearSign : Bool
  signers : List (List Nat)
  signatures : List (List Nat)
  receivers : List (List Nat)
  decryptors : List (List Nat)
  canSign : Bool
  canEncrypt : Bool
  canDone : Bool
deriving DecidableEq

/-- `this.write(plaintext, options)`: store the plaintext, draw the random
64-byte content key (explicit `mainKey` parameter), record the clear-sign
flag, enable `sign`, and enable `encrypt` unless clear-signing; `done` is
not yet available. -/
def msgWrite (plaintext : List Nat) (clearSign : Bool) (mainKey : List Nat) : MsgW :=
  ⟨plaintext, mainKey, clearSign, [], [], [], [], true, !clearSign, false⟩

/-- `sign(withIdentity)`: reject when the method has been revoked or the
identity has no private half; append the fingerprint/signature pair,
revoke `sign` once 255 signers are reached, and make `done` available. -/
def msgSign (st : MsgW) (idn : Identity) : Except String MsgW :=
  if st.canSign = false then .error "enigma-unavailable-operation"
  else if idn.isPriv = false then .error "enigma-invalid-identity-for-sign"
  else .ok { st with
    signers := st.signers ++ [iFp idn],
    signatures := st.signatures ++ [iSign idn st.plaintextBuf],
    canSign := decide (st.signers.length + 1 < 255),
    canDone := true }

/-- `encrypt(toIdentity)`: reject when the method has been revoked (never
present on a clear-signed message); append the fingerprint and the content
key wrapped for the identity, revoke `encrypt` once 255 receivers are
reached, and make `done` available. -/
def msgEncrypt (st : MsgW) (idn : Identity) (tempCredential : List Nat) :
    Except String MsgW :=
  if st.canEncrypt = false then .error "enigma-unavailable-operation"
  else .ok { st with
    receivers := st.receivers ++ [iFp idn],
    decryptors := st.decryptors ++ [iEncrypt idn tempCredential st.mainKeyBuf],
    canEncrypt := decide (st.receivers.length + 1 < 255),
    canDone := true }

/-- `done()`: reject when unavailable; serialize the payload record; if
clear-signing return it directly; otherwise compress it (always `'lzw'`),
symmetric-encrypt it under the content key when there is at least one
receiver, and wrap everything in a serialized envelope. -/
def msgDone (st : MsgW) : Except String (List Nat) :=
  if st.canDone = false then .error "enigma-unavailable-operation"
  else
    let payloadBuf := serializePayload ⟨st.signers, st.signatures, st.plaintextBuf⟩
    if st.clearSign then .ok payloadBuf
    else
      let compressed := compress payloadBuf
      let sealed := if st.decryptors.length > 0 then symEncrypt st.mainKeyBuf compressed
        else compressed
      .ok (serializeEnvelope ⟨.lzw, st.receivers, st.decryptors, sealed⟩)

/-- The read-mode state after `beginRead` found an envelope with at least
one receiver: the payload is still wrapped and only `decrypt` /
`getReceivers` are exposed. -/
structure LockedSt where
  receivers : List (List Nat)
  decryptors : List (List Nat)
  compression : Compression
  payloadBuf : List Nat
deriving DecidableEq

/-- The read-mode state after the payload was unpacked: plaintext plus the
signer lists; `verify` is exposed only when there is at least one
signer. -/
structure UnlockedSt where
  plaintext : List Nat
  signers : List (List Nat)
  signatures : List (List Nat)
  canVerify : Bool
deriving DecidableEq

/-- The two read-mode states. -/
inductive ReadState where
  | locked (l : LockedSt)
  | unlocked (u : UnlockedSt)
deriving DecidableEq

/-- `continueUnpackPayload()`: decompress when the compression tag says
`'lzw'` (failure: `enigma-invalid-input`), deserialize the payload record
(failure: `enigma-invalid-input`), require aligned signer/signature lists,
and expose the plaintext (and `verify`, when signers exist). -/
def continueUnpack (comp : Compression) (payloadBuf : List Nat) :
    Except String ReadState :=
  let unpacked : Except String (List Nat) :=
    match comp with
    | .lzw =>
      match decompress payloadBuf with
      | none => .error "enigma-invalid-input"
      | some b => .ok b
    | .raw => .ok payloadBuf
  match unpacked with
  | .error e => .error e
  | .ok pb =>
    match deserializePayload pb with
    | none => .error "enigma-invalid-input"
    | some p =>
      if p.signatures.length ≠ p.signers.length then .error "enigma-invalid-input"
      else .ok (.unlocked ⟨p.content, p.signers, p.signatures, !p.signers.isEmpty⟩)

/-- `this.read(textBuf)`: try to deserialize an envelope; on success with
receivers present, stop in the locked state; with zero receivers, unpack
the payload; when the buffer is no envelope at all, treat it as a bare
payload with no compression. -/
def msgRead (buf : List Nat) : Except String ReadState :=
  match deserializeEnvelope buf with
  | some env =>
    if env.receivers.length ≠ env.decryptors.length then .error "enigma-invalid-input"
    else if env.receivers.length > 0 then
      .ok (.locked ⟨env.receivers, env.decryptors, env.compression, env.payload⟩)
    else continueUnpack env.compression env.payload
  | none => continueUnpack .raw buf

/-- The first-match linear scan shared by `decrypt` and `verify`: walk the
fingerprint list, return the aligned entry of the parallel list for the
first match. -/
def lookupPair (fp : List Nat) : List (List Nat) → List (List Nat) → Option (List Nat)
  | [], _ => none
  | _ :: _, [] => none
  | r :: rs, d :: ds => if r = fp then some d else lookupPair fp rs ds

/-- `decrypt(withIdentity)`: require a private-capable identity; find the
first receiver entry matching its fingerprint (failure:
`enigma-not-intended-identity-for-decrypt`); unwrap the content key with
the identity (failure: `enigma-identity-decryption-error`);
symmetric-decrypt the payload (failure: `enigma-message-corrupted`); then
unpack the payload. -/
def msgDecrypt : ReadState → Identity → Except String ReadState
  | .locked l, idn =>
    if idn.isPriv = false then .error "enigma-invalid-public-identity-for-decrypt"
    else
      match lookupPair (iFp idn) l.receivers l.decryptors with
      | none => .error "enigma-not-intended-identity-for-decrypt"
      | some dec =>
        match iDecrypt idn dec with
        | .error _ => .error "enigma-identity-decryption-error"
        | .ok mainKeyBuf =>
          match symDecrypt mainKeyBuf l.payloadBuf with
          | none => .error "enigma-message-corrupted"
          | some pb => continueUnpack l.compression pb
  | .unlocked _, _ => .error "enigma-unavailable-operation"

/-- `verify(withIdentity)`: require the method to be exposed (signers
present); find the first signer entry matching the identity's fingerprint
(failure: `enigma-invalid-identity-for-verify`); return the boolean result
of the identity's verification. -/
def msgVerify (u : UnlockedSt) (idn : Identity) : Except String Bool :=
  if u.canVerify = false then .error "enigma-unavailable-operation"
  else
    match lookupPair (iFp idn) u.signers u.signatures with
    | none => .error "enigma-invalid-identity-for-verify"
    | some sig => .ok (iVerify idn u.plaintext sig)

/-- Iterated `sign` calls, left to right. -/
def signAll : MsgW → List Identity → Except String MsgW
  | st, [] => .ok st
  | st, i :: is =>
    match msgSign st i with
    | .error e => .error e
    | .ok st2 => signAll st2 is

/-- Iterated `encrypt` calls, left to right, each with its own ephemeral
credential. -/
def encryptAll : MsgW → List (Identity × List Nat) → Except String MsgW
  | st, [] => .ok st
  | st, (i, t) :: rest =>
    match msgEncrypt st i t with
    | .error e => .error e
    | .ok st2 => encryptAll st2 rest

/-- The full write pipeline: `write`, the sign calls, the encrypt calls,
`done`. -/
def buildMessage (pt mainKey : List Nat) (clearSign : Bool)
    (sids : List Identity) (rts : List (Identity × List Nat)) :
    Except String (List Nat) :=
  match signAll (msgWrite pt clearSign mainKey) sids with
  | .error e => .error e
  | .ok st1 =>
    match encryptAll st1 rts with
    | .error e => .error e
    | .ok st2 => msgDone st2

/-- The full read pipeline: `read`, then `decrypt` with the supplied
identity when the message came back locked, then `getPlaintext()`. -/
def openMessage (buf : List Nat) (idn : Identity) : Except String (List Nat) :=
  match msgRead buf with
  | .error e => .error e
  | .ok (.unlocked u) => .ok u.plaintext
  | .ok (.locked l) =>
    match msgDecrypt (.locked l) idn with
    | .error e => .error e
    | .ok (.unlocked u) => .ok u.plaintext
    | .ok (.locked _) => .error "enigma-unavailable-operation"

/-- One write-phase operation, for reasoning about arbitrary call
sequences. -/
inductive WOp where
  | sgn (i : Identity)
  | enc (i : Identity) (tempCredential : List Nat)
deriving DecidableEq

/-- Apply one write-phase operation. -/
def applyOp (st : MsgW) : WOp → Except String MsgW
  | .sgn i => msgSign st i
  | .enc i t => msgEncrypt st i t

/-- Apply a sequence of write-phase operations, stopping at the first
failure. -/
def applyOps : MsgW → List WOp → Except String MsgW
  | st, [] => .ok st
  | st, op :: ops =>
    match applyOp st op with
    | .error e => .error e
    | .ok st2 => applyOps st2 ops

/-! ## Lemmas: numeric byte encodings -/

lemma bytesNat_append_single (xs : List Nat) (b : Nat) :
    bytesNat (xs ++ [b]) = bytesNat xs * 256 + b := by
  simp [bytesNat, List.foldl_append]

lemma bytesNat_natBytes (n : Nat) : bytesNat (natBytes n) = n := by
  induction n using Nat.strong_induction_on with
  | _ n ih =>
    match n with
    | 0 => simp [natBytes_zero, bytesNat]
    | Nat.succ m =>
      rw [natBytes_succ, bytesNat_append_single, ih ((m+1) / 256) (Nat.div_lt_self (Nat.succ_pos m) (by omega))]
      omega

lemma natBytes_inj {a b : Nat} (h : natBytes a = natBytes b) : a = b := by
  have ha := bytesNat_natBytes a
  have hb := bytesNat_natBytes b
  rw [h] at ha
  omega

lemma natBytes_length_le : ∀ (k n : Nat), n < 256 ^ k → (natBytes n).length ≤ k := by
  intro k
  induction k with
  | zero =>
    intro n hn
    have : n = 0 := by simpa using hn
    simp [this, natBytes_zero]
  | succ k ih =>
    intro n hn
    match n with
    | 0 => simp [natBytes_zero]
    | Nat.succ m =>
      rw [natBytes_succ]
      have hq : (m+1) / 256 < 256 ^ k := by
        rw [Nat.div_lt_iff_lt_mul (by omega)]
        calc m + 1 < 256 ^ (k+1) := hn
          _ = 256 ^ k * 256 := by ring
      have := ih ((m+1) / 256) hq
      simp only [List.length_append, List.length_cons, List.length_nil]
      omega

lemma encLen_length : ∀ (w n : Nat), (encLen w n).length = w := by
  intro w
  induction w with
  | zero => intro n; simp [encLen]
  | succ w ih =>
    intro n
    simp only [encLen, List.length_append, List.length_cons, List.length_nil, ih]

lemma bytesNat_encLen : ∀ (w n : Nat), n < 256 ^ w → bytesNat (encLen w n) = n := by
  intro w
  induction w with
  | zero =>
    intro n hn
    have : n = 0 := by simpa using hn
    simp [this, encLen, bytesNat]
  | succ w ih =>
    intro n hn
    have hq : n / 256 < 256 ^ w := by
      rw [Nat.div_lt_iff_lt_mul (by omega)]
      calc n < 256 ^ (w+1) := hn
        _ = 256 ^ w * 256 := by ring
    rw [encLen, bytesNat_append_single, ih (n / 256) hq]
    omega

lemma take_append_len (a b : List Nat) : (a ++ b).take a.length = a := by
  induction a with
  | nil => simp
  | cons x xs ih => simp [ih]

lemma drop_append_len (a b : List Nat) : (a ++ b).drop a.length = b := by
  induction a with
  | nil => simp
  | cons x xs ih => simp [ih]

lemma splitAtOpt_exact (a b : List Nat) : splitAtOpt a.length (a ++ b) = some (a, b) := by
  unfold splitAtOpt
  rw [if_pos (by simp), take_append_len, drop_append_len]

lemma splitAtOpt_of_length (n : Nat) (a b : List Nat) (h : a.length = n) :
    splitAtOpt n (a ++ b) = some (a, b) := by
  subst h
  exact splitAtOpt_exact a b

lemma decNum_encLen (w n : Nat) (rest : List Nat) (h : n < 256 ^ w) :
    decNum w (encLen w n ++ rest) = some (n, rest) := by
  unfold decNum
  rw [splitAtOpt_of_length w (encLen w n) rest (encLen_length w n)]
  simp [bytesNat_encLen w n h]

lemma decU16LE_encU16LE (n : Nat) (h : n < 65536) : decU16LE (encU16LE n) = n := by
  simp only [decU16LE, encU16LE]
  omega

lemma encU16LE_length (n : Nat) : (encU16LE n).length = 2 := by
  simp [encU16LE]

/-! ## Lemmas: XOR streams and modelled primitives -/

lemma xorBytes_length (a b : List Nat) : (xorBytes a b).length = min a.length b.length := by
  simp [xorBytes]

lemma xorBytes_cancel : ∀ (a k : List Nat), k.length = a.length →
    xorBytes (xorBytes a k) k = a := by
  intro a
  induction a with
  | nil => intro k h; simp [xorBytes]
  | cons x xs ih =>
    intro k h
    match k with
    | [] => simp at h
    | y :: ys =>
      have hlen : ys.length = xs.length := by
        simpa using h
      simp only [xorBytes, List.zipWith_cons_cons]
      rw [Nat.xor_assoc, Nat.xor_self, Nat.xor_zero]
      have := ih ys hlen
      simp only [xorBytes] at this
      rw [this]

lemma kdfStream_length (secret salt : List Nat) (len : Nat) :
    (kdfStream secret salt len).length = len := by
  simp [kdfStream]

lemma symDecrypt_symEncrypt (k pt : List Nat) :
    symDecrypt k (symEncrypt k pt) = some pt := by
  unfold symDecrypt symEncrypt
  rw [if_pos ⟨by rw [take_append_len], by simp⟩, drop_append_len]

lemma decompress_compress (l : List Nat) : decompress (compress l) = some l := rfl

lemma encodeList_inj : ∀ {a b : List Nat}, encodeList a = encodeList b → a = b := by
  intro a
  induction a with
  | nil =>
    intro b h
    match b with
    | [] => rfl
    | y :: ys => simp [encodeList] at h
  | cons x xs ih =>
    intro b h
    match b with
    | [] => simp [encodeList] at h
    | y :: ys =>
      simp only [encodeList, List.foldr_cons] at h
      have h2 : Nat.pair x (encodeList xs) = Nat.pair y (encodeList ys) := by
        simpa [encodeList] using h
      have h3 := Nat.pair_eq_pair.mp h2
      have h4 := ih (b := ys) h3.2
      rw [h3.1, h4]

/-! ## Lemmas: the EC hybrid scheme -/

lemma computeSecret_pubKeyOf (d s : Nat) :
    computeSecret d (pubKeyOf s) = natBytes (d * s) := by
  simp [computeSecret, pubKeyOf, bytesNat_natBytes]

/-- ECDH round trip of the hybrid scheme: decrypting one's own encryption
output regenerates the keystream and recovers the plaintext, for any
nonempty plaintext and any ephemeral credential whose temporary public key
fits the 2-byte length prefix. -/
lemma ec_roundtrip (s : Nat) (temp data : List Nat) (hd : data ≠ [])
    (ht : (natBytes (bytesNat temp)).length + 1 < 65536) :
    ecDecryptCred s (ecEncryptCred (pubKeyOf s) temp data) = .ok data := by
  have hdlen : 0 < data.length := List.length_pos.mpr hd
  simp only [ecEncryptCred, ecDecryptCred]
  set t := bytesNat temp with htdef
  set tp := pubKeyOf t with htp
  set ks := kdfStream (computeSecret t (pubKeyOf s)) tp data.length with hks
  set rs := xorBytes data ks with hrs
  have hkslen : ks.length = data.length := kdfStream_length _ _ _
  have hrslen : rs.length = data.length := by
    rw [hrs, xorBytes_length, hkslen]
    omega
  have htplen : tp.length = (natBytes t).length + 1 := by
    simp [htp, pubKeyOf]
  have htotlen : (encU16LE tp.length ++ tp ++ rs).length = 2 + tp.length + rs.length := by
    simp [encU16LE]
    omega
  rw [if_neg (by omega)]
  have hsplit2 : (encU16LE tp.length ++ tp ++ rs).take 2 = encU16LE tp.length ∧
      (encU16LE tp.length ++ tp ++ rs).drop 2 = tp ++ rs := by
    rw [List.append_assoc]
    constructor
    · have := take_append_len (encU16LE tp.length) (tp ++ rs)
      rwa [encU16LE_length] at this
    · have := drop_append_len (encU16LE tp.length) (tp ++ rs)
      rwa [encU16LE_length] at this
  rw [hsplit2.1, hsplit2.2, decU16LE_encU16LE tp.length (by omega)]
  have hrest : (tp ++ rs).length = tp.length + rs.length := by simp
  rw [if_neg (by omega)]
  rw [take_append_len, drop_append_len]
  have hshared : computeSecret s tp = computeSecret t (pubKeyOf s) := by
    rw [htp, computeSecret_pubKeyOf, computeSecret_pubKeyOf, Nat.mul_comm]
  rw [hshared, hrslen, hrs, xorBytes_cancel data ks (by omega)]

/-! ## Lemmas: fingerprints -/

lemma iFp_eq_pair (i : Identity) :
    iFp i = [Nat.pair (encodeList (iPub i)) (encodeList i.subject)] := by
  simp [iFp, identityIdOf, mac]

lemma iFp_length (i : Identity) : (iFp i).length = 1 := by
  rw [iFp_eq_pair]
  simp

/-- The idealized MAC makes fingerprints collision-free: equal fingerprints
force equal public keys, hence equal private scalars. -/
lemma iFp_inj_scalar {a b : Identity} (h : iFp a = iFp b) : iScalar a = iScalar b := by
  rw [iFp_eq_pair, iFp_eq_pair] at h
  have h1 : Nat.pair (encodeList (iPub a)) (encodeList a.subject) =
      Nat.pair (encodeList (iPub b)) (encodeList b.subject) := by
    simpa using h
  have h2 := (Nat.pair_eq_pair.mp h1).1
  have h3 : iPub a = iPub b := encodeList_inj h2
  simp only [iPub, pubKeyOf] at h3
  exact natBytes_inj (by simpa using h3)

lemma iSign_length (i : Identity) (pt : List Nat) : (iSign i pt).length = 1 := by
  simp [iSign, ecSign]

/-! ## Lemmas: codec round trips -/

lemma splitAtOpt_self (l : List Nat) : splitAtOpt l.length l = some (l, []) := by
  have := splitAtOpt_exact l []
  simpa using this

lemma encItems_cons (b : List Nat) (bs : List (List Nat)) :
    encItems (b :: bs) = encItem b ++ encItems bs := rfl

lemma decItems_encItems : ∀ (l : List (List Nat)) (rest : List Nat),
    (∀ b ∈ l, b.length < 2 ^ 32) →
    decItems l.length (encItems l ++ rest) = some (l, rest) := by
  intro l
  induction l with
  | nil => intro rest h; simp [decItems, encItems]
  | cons b bs ih =>
    intro rest h
    rw [encItems_cons, encItem, List.length_cons, List.append_assoc, List.append_assoc]
    have e1 : decNum 4 (encLen 4 b.length ++ (b ++ (encItems bs ++ rest))) =
        some (b.length, b ++ (encItems bs ++ rest)) :=
      decNum_encLen 4 b.length _ (h b (by simp))
    have e2 : splitAtOpt b.length (b ++ (encItems bs ++ rest)) =
        some (b, encItems bs ++ rest) := splitAtOpt_of_length b.length b _ rfl
    have e3 := ih rest (fun x hx => h x (by simp [hx]))
    simp [decItems, e1, e2, e3]

lemma deserializePayload_roundtrip (r : PayloadRec)
    (h1 : r.signers.length < 256) (h2 : r.signatures.length < 2 ^ 16)
    (h3 : ∀ b ∈ r.signers, b.length < 2 ^ 32)
    (h4 : ∀ b ∈ r.signatures, b.length < 2 ^ 32)
    (h5 : r.content.length < 2 ^ 32) :
    deserializePayload (serializePayload r) = some r := by
  obtain ⟨ss, sg, c⟩ := r
  simp only at h1 h2 h3 h4 h5
  have e1 : ∀ rest : List Nat, splitAtOpt 2 (69 :: 112 :: rest) = some ([69, 112], rest) :=
    fun rest => splitAtOpt_of_length 2 [69, 112] rest rfl
  have e2 : ∀ rest : List Nat, decNum 1 (encLen 1 ss.length ++ rest) = some (ss.length, rest) :=
    fun rest => decNum_encLen 1 ss.length rest (by norm_num; omega)
  have e3 : ∀ rest : List Nat, decItems ss.length (encItems ss ++ rest) = some (ss, rest) :=
    fun rest => decItems_encItems ss rest h3
  have e4 : ∀ rest : List Nat, decNum 2 (encLen 2 sg.length ++ rest) = some (sg.length, rest) :=
    fun rest => decNum_encLen 2 sg.length rest (by omega)
  have e5 : ∀ rest : List Nat, decItems sg.length (encItems sg ++ rest) = some (sg, rest) :=
    fun rest => decItems_encItems sg rest h4
  have e6 : ∀ rest : List Nat, decNum 4 (encLen 4 c.length ++ rest) = some (c.length, rest) :=
    fun rest => decNum_encLen 4 c.length rest (by omega)
  have e7 : splitAtOpt c.length c = some (c, []) := splitAtOpt_self c
  rw [serializePayload, deserializePayload]
  simp [List.append_assoc, e1, e2, e3, e4, e5, e6, e7]

lemma deserializeEnvelope_roundtrip (r : EnvelopeRec)
    (h1 : r.receivers.length < 256) (h2 : r.decryptors.length < 2 ^ 16)
    (h3 : ∀ b ∈ r.receivers, b.length < 2 ^ 32)
    (h4 : ∀ b ∈ r.decryptors, b.length < 2 ^ 32)
    (h5 : r.payload.length < 2 ^ 32) :
    deserializeEnvelope (serializeEnvelope r) = some r := by
  obtain ⟨comp, rc, dc, p⟩ := r
  simp only at h1 h2 h3 h4 h5
  have e1 : ∀ rest : List Nat, splitAtOpt 2 (69 :: 67 :: rest) = some ([69, 67], rest) :=
    fun rest => splitAtOpt_of_length 2 [69, 67] rest rfl
  have e2 : ∀ rest : List Nat, decNum 1 (encLen 1 comp.idx ++ rest) = some (comp.idx, rest) :=
    fun rest => decNum_encLen 1 comp.idx rest (by cases comp <;> simp [Compression.idx])
  have e3 : decCompression comp.idx = some comp := by
    cases comp <;> rfl
  have e4 : ∀ rest : List Nat, decNum 1 (encLen 1 rc.length ++ rest) = some (rc.length, rest) :=
    fun rest => decNum_encLen 1 rc.length rest (by norm_num; omega)
  have e5 : ∀ rest : List Nat, decItems rc.length (encItems rc ++ rest) = some (rc, rest) :=
    fun rest => decItems_encItems rc rest h3
  have e6 : ∀ rest : List Nat, decNum 2 (encLen 2 dc.length ++ rest) = some (dc.length, rest) :=
    fun rest => decNum_encLen 2 dc.length rest (by omega)
  have e7 : ∀ rest : List Nat, decItems dc.length (encItems dc ++ rest) = some (dc, rest) :=
    fun rest => decItems_encItems dc rest h4
  have e8 : ∀ rest : List Nat, decNum 4 (encLen 4 p.length ++ rest) = some (p.length, rest) :=
    fun rest => decNum_encLen 4 p.length rest (by omega)
  have e9 : splitAtOpt p.length p = some (p, []) := splitAtOpt_self p
  rw [serializeEnvelope, deserializeEnvelope]
  simp [List.append_assoc, e1, e2, e3, e4, e5, e6, e7, e8, e9]

lemma deserializeIdentity_roundtrip (r : IdentityRec) (sec : List Nat)
    (hsec : r.secret = some sec)
    (h1 : r.subject.length < 256) (h2 : r.algorithm < 1)
    (h3 : r.publicK.length < 2 ^ 16) (h4 : sec.length < 256)
    (h5 : r.signature.length < 2 ^ 16) :
    deserializeIdentity (serializeIdentity r) = some r := by
  obtain ⟨subj, ai, pk, osec, sg⟩ := r
  simp only at h1 h2 h3 h4 h5
  simp only at hsec
  subst hsec
  have e1 : ∀ rest : List Nat, splitAtOpt 2 (69 :: 73 :: rest) = some ([69, 73], rest) :=
    fun rest => splitAtOpt_of_length 2 [69, 73] rest rfl
  have e2 : ∀ rest : List Nat, decNum 1 (encLen 1 subj.length ++ rest) = some (subj.length, rest) :=
    fun rest => decNum_encLen 1 subj.length rest (by norm_num; omega)
  have e3 : ∀ rest : List Nat, splitAtOpt subj.length (subj ++ rest) = some (subj, rest) :=
    fun rest => splitAtOpt_of_length subj.length subj rest rfl
  have e4 : ∀ rest : List Nat, decNum 1 (encLen 1 ai ++ rest) = some (ai, rest) :=
    fun rest => decNum_encLen 1 ai rest (by omega)
  have e5 : ∀ rest : List Nat, decNum 2 (encLen 2 pk.length ++ rest) = some (pk.length, rest) :=
    fun rest => decNum_encLen 2 pk.length rest (by omega)
  have e6 : ∀ rest : List Nat, splitAtOpt pk.length (pk ++ rest) = some (pk, rest) :=
    fun rest => splitAtOpt_of_length pk.length pk rest rfl
  have e7 : ∀ rest : List Nat, decNum 1 (encLen 1 sec.length ++ rest) = some (sec.length, rest) :=
    fun rest => decNum_encLen 1 sec.length rest (by norm_num; omega)
  have e8 : ∀ rest : List Nat, splitAtOpt sec.length (sec ++ rest) = some (sec, rest) :=
    fun rest => splitAtOpt_of_length sec.length sec rest rfl
  have e9 : ∀ rest : List Nat, decNum 2 (encLen 2 sg.length ++ rest) = some (sg.length, rest) :=
    fun rest => decNum_encLen 2 sg.length rest (by omega)
  have e10 : splitAtOpt sg.length sg = some (sg, []) := splitAtOpt_self sg
  rw [serializeIdentity, deserializeIdentity]
  simp [Option.getD_some, List.append_assoc, e1, e2, e3, e4, e5, e6, e7, e8, e9, e10, h2]

/-! ## Lemmas: the write-side state machine -/

/-- Characterization of a successful run of `sign` calls: fingerprints and
signatures are appended in order, `sign` stays available below 255 total
signers, `done` becomes available as soon as one call happened. -/
lemma signAll_ok : ∀ (sids : List Identity) (st : MsgW),
    (∀ i ∈ sids, i.isPriv = true) →
    st.canSign = decide (st.signers.length < 255) →
    st.signers.length + sids.length ≤ 255 →
    signAll st sids = .ok { st with
      signers := st.signers ++ sids.map iFp,
      signatures := st.signatures ++ sids.map (fun i => iSign i st.plaintextBuf),
      canSign := decide (st.signers.length + sids.length < 255),
      canDone := st.canDone || !sids.isEmpty } := by
  intro sids
  induction sids with
  | nil =>
    intro st hpriv hcan hlen
    simp only [signAll, List.map_nil, List.append_nil, List.isEmpty_nil, Bool.not_true,
      Bool.or_false, List.length_nil, Nat.add_zero]
    rw [← hcan]
  | cons i is ih =>
    intro st hpriv hcan hlen
    have hsteplt : st.signers.length < 255 := by
      simp only [List.length_cons] at hlen
      omega
    have hcanTrue : st.canSign = true := by
      rw [hcan]
      simpa using hsteplt
    rw [signAll, msgSign, hcanTrue]
    simp only [Bool.true_eq_false, if_false]
    rw [hpriv i (by simp)]
    simp only [Bool.true_eq_false, if_false]
    rw [ih _ (fun j hj => hpriv j (by simp [hj])) (by simp)
      (by simp only [List.length_cons] at hlen; simp; omega)]
    simp only [List.append_assoc, List.map_cons, List.length_append, List.length_cons]
    congr 2 <;> simp <;> congr 1 <;> omega

/-- Characterization of a successful run of `encrypt` calls. -/
lemma encryptAll_ok : ∀ (rts : List (Identity × List Nat)) (st : MsgW),
    st.canEncrypt = decide (st.receivers.length < 255) →
    st.receivers.length + rts.length ≤ 255 →
    encryptAll st rts = .ok { st with
      receivers := st.receivers ++ rts.map (fun p => iFp p.1),
      decryptors := st.decryptors ++ rts.map (fun p => iEncrypt p.1 p.2 st.mainKeyBuf),
      canEncrypt := decide (st.receivers.length + rts.length < 255),
      canDone := st.canDone || !rts.isEmpty } := by
  intro rts
  induction rts with
  | nil =>
    intro st hcan hlen
    simp only [encryptAll, List.map_nil, List.append_nil, List.isEmpty_nil, Bool.not_true,
      Bool.or_false, List.length_nil, Nat.add_zero]
    rw [← hcan]
  | cons p ps ih =>
    intro st hcan hlen
    obtain ⟨i, t⟩ := p
    have hsteplt : st.receivers.length < 255 := by
      simp only [List.length_cons] at hlen
      omega
    have hcanTrue : st.canEncrypt = true := by
      rw [hcan]
      simpa using hsteplt
    rw [encryptAll, msgEncrypt, hcanTrue]
    simp only [Bool.true_eq_false, if_false]
    rw [ih _ (by simp)
      (by simp only [List.length_cons] at hlen; simp; omega)]
    simp only [List.append_assoc, List.map_cons, List.length_append, List.length_cons]
    congr 2 <;> simp <;> congr 1 <;> omega

/-- The first receiver entry matching the decrypting identity's
fingerprint carries the content key wrapped for an identity with that very
fingerprint. -/
lemma lookupPair_map_zip (drid : Identity) (mk : List Nat) :
    ∀ (rids : List Identity) (temps : List (List Nat)),
    drid ∈ rids → temps.length = rids.length →
    ∃ r t, lookupPair (iFp drid) (rids.map iFp)
        (List.zipWith (fun i tt => iEncrypt i tt mk) rids temps) = some (iEncrypt r t mk) ∧
      iFp r = iFp drid ∧ t ∈ temps := by
  intro rids
  induction rids with
  | nil => intro temps hmem; simp at hmem
  | cons r rs ih =>
    intro temps hmem hlen
    match temps with
    | [] => simp at hlen
    | t :: ts =>
      simp only [List.map_cons, List.zipWith_cons_cons, lookupPair]
      by_cases hfp : iFp r = iFp drid
      · exact ⟨r, t, by rw [if_pos hfp], hfp, by simp⟩
      · rw [if_neg hfp]
        have hmem2 : drid ∈ rs := by
          rcases List.mem_cons.mp hmem with h | h
          · exact absurd (by rw [h]) hfp
          · exact h
        obtain ⟨r0, t0, he, hf, ht⟩ := ih ts hmem2 (by simpa using hlen)
        exact ⟨r0, t0, he, hf, by simp [ht]⟩

/-! ## Lemmas: serialized lengths -/

lemma encItems_length_const (l : List (List Nat)) (h : ∀ b ∈ l, b.length = 1) :
    (encItems l).length = 5 * l.length := by
  induction l with
  | nil => simp [encItems]
  | cons b bs ih =>
    rw [encItems_cons]
    simp only [List.length_append, List.length_cons, encItem, encLen_length,
      h b (by simp), ih (fun x hx => h x (by simp [hx]))]
    simp [encItem, encLen_length, h b (List.mem_cons_self b bs)]
    omega

lemma serializePayload_length (r : PayloadRec)
    (hs : ∀ b ∈ r.signers, b.length = 1) (hg : ∀ b ∈ r.signatures, b.length = 1) :
    (serializePayload r).length =
      9 + 5 * r.signers.length + 5 * r.signatures.length + r.content.length := by
  simp only [serializePayload, List.length_append, List.length_cons, List.length_nil,
    encLen_length, encItems_length_const r.signers hs, encItems_length_const r.signatures hg]
  omega

lemma ecEncryptCred_length (pub temp data : List Nat) :
    (ecEncryptCred pub temp data).length =
      3 + (natBytes (bytesNat temp)).length + data.length := by
  simp only [ecEncryptCred, List.length_append, encU16LE_length, xorBytes_length,
    kdfStream_length, pubKeyOf, List.length_cons]
  omega

/-! ## Lemmas: write-phase call sequences -/

lemma msgSign_ok_canDone {st : MsgW} {i : Identity} {st2 : MsgW}
    (h : msgSign st i = .ok st2) : st2.canDone = true := by
  unfold msgSign at h
  split at h
  · exact absurd h (by simp)
  · split at h
    · exact absurd h (by simp)
    · injection h with h2
      rw [← h2]

lemma msgEncrypt_ok_canDone {st : MsgW} {i : Identity} {t : List Nat} {st2 : MsgW}
    (h : msgEncrypt st i t = .ok st2) : st2.canDone = true := by
  unfold msgEncrypt at h
  split at h
  · exact absurd h (by simp)
  · injection h with h2
    rw [← h2]

lemma applyOp_ok_canDone {st : MsgW} {op : WOp} {st2 : MsgW}
    (h : applyOp st op = .ok st2) : st2.canDone = true := by
  cases op with
  | sgn i => exact msgSign_ok_canDone h
  | enc i t => exact msgEncrypt_ok_canDone h

/-- A successful write-phase run returns the start state unchanged when it
was empty, and a state with `done` available otherwise. -/
lemma applyOps_ok_characterize : ∀ (ops : List WOp) (st st2 : MsgW),
    applyOps st ops = .ok st2 →
    (ops = [] → st2 = st) ∧ (ops ≠ [] → st2.canDone = true) := by
  intro ops
  induction ops with
  | nil =>
    intro st st2 h
    refine ⟨fun _ => ?_, fun hne => absurd rfl hne⟩
    simp only [applyOps] at h
    injection h with h2
    rw [h2]
  | cons op ops ih =>
    intro st st2 h
    simp only [applyOps] at h
    refine ⟨fun hne => by simp at hne, fun _ => ?_⟩
    match hmid : applyOp st op with
    | .error e => rw [hmid] at h; exact absurd h (by simp)
    | .ok mid =>
      rw [hmid] at h
      rcases ih mid st2 h with ⟨hnil, hne⟩
      match ops with
      | [] =>
        rw [hnil rfl]
        exact applyOp_ok_canDone hmid
      | op2 :: ops2 => exact hne (by simp)

/-- With `encrypt` revoked (as on a clear-signed message) and no `sign`
among the operations, the only successful run is the empty one. -/
lemma applyOps_no_sign_no_encrypt : ∀ (ops : List WOp) (st st2 : MsgW),
    st.canEncrypt = false →
    (∀ i, WOp.sgn i ∉ ops) →
    applyOps st ops = .ok st2 →
    st2 = st ∧ ops = [] := by
  intro ops
  induction ops with
  | nil =>
    intro st st2 _ _ h
    simp only [applyOps] at h
    injection h with h2
    exact ⟨h2.symm, rfl⟩
  | cons op ops ih =>
    intro st st2 hce hns h
    match op with
    | .sgn i => exact absurd (by simp) (hns i)
    | .enc i t =>
      simp only [applyOps, applyOp] at h
      rw [msgEncrypt, if_pos (by rw [hce])] at h
      exact absurd h (by simp)

/-! ## Helpers for the full message round trip -/

lemma map_fst_zipf {α β γ : Type} (f : α → γ) :
    ∀ (l1 : List α) (l2 : List β), l2.length = l1.length →
    (l1.zip l2).map (fun p => f p.1) = l1.map f := by
  intro l1
  induction l1 with
  | nil => intro l2 h; simp
  | cons a l ih =>
    intro l2 h
    match l2 with
    | [] => simp at h
    | b :: bs => simp [ih bs (by simpa using h)]

lemma map_zip_eq_zipWith {α β γ : Type} (f : α → β → γ) :
    ∀ (l1 : List α) (l2 : List β),
    (l1.zip l2).map (fun p => f p.1 p.2) = List.zipWith f l1 l2 := by
  intro l1
  induction l1 with
  | nil => intro l2; simp
  | cons a l ih =>
    intro l2
    match l2 with
    | [] => simp
    | b :: bs => simp [ih bs]

/-- The payload record a finished message serializes always round-trips
through the codec. -/
lemma payload_roundtrip_msg (sids : List Identity) (pt : List Nat)
    (h2 : sids.length ≤ 255) (h6 : pt.length < 2 ^ 20) :
    deserializePayload (serializePayload
      ⟨sids.map iFp, sids.map (fun i => iSign i pt), pt⟩) =
      some ⟨sids.map iFp, sids.map (fun i => iSign i pt), pt⟩ := by
  apply deserializePayload_roundtrip
  · simp only [List.length_map]
    omega
  · simp only [List.length_map]
    omega
  · intro b hb
    rcases List.mem_map.mp hb with ⟨i, _, rfl⟩
    rw [iFp_length]
    norm_num
  · intro b hb
    rcases List.mem_map.mp hb with ⟨i, _, rfl⟩
    rw [iSign_length]
    norm_num
  · simp only []
    omega

/-- Unpacking the compressed payload of a finished message recovers the
plaintext and the signer lists. -/
lemma continueUnpack_msg (sids : List Identity) (pt : List Nat)
    (h2 : sids.length ≤ 255) (h6 : pt.length < 2 ^ 20) :
    continueUnpack .lzw (compress (serializePayload
      ⟨sids.map iFp, sids.map (fun i => iSign i pt), pt⟩)) =
      .ok (.unlocked ⟨pt, sids.map iFp, sids.map (fun i => iSign i pt),
        !(sids.map iFp).isEmpty⟩) := by
  simp only [continueUnpack, decompress_compress]
  rw [payload_roundtrip_msg sids pt h2 h6]
  simp

/-- Length of the payload record a finished message serializes. -/
lemma pser_length (sids : List Identity) (pt : List Nat) :
    (serializePayload ⟨sids.map iFp, sids.map (fun i => iSign i pt), pt⟩).length =
      9 + 5 * sids.length + 5 * sids.length + pt.length := by
  rw [serializePayload_length]
  · simp
  · intro b hb
    rcases List.mem_map.mp hb with ⟨i, _, rfl⟩
    exact iFp_length i
  · intro b hb
    rcases List.mem_map.mp hb with ⟨i, _, rfl⟩
    exact iSign_length i pt

/-- Every wrapped content key in a finished message fits the codec's
4-byte item length field. -/
lemma decryptors_item_bound (rids : List Identity) (temps : List (List Nat))
    (mainKey : List Nat) (h7 : mainKey.length < 2 ^ 10)
    (h8 : ∀ t ∈ temps, bytesNat t < 256 ^ 128) :
    ∀ b ∈ (rids.zip temps).map (fun p => iEncrypt p.1 p.2 mainKey), b.length < 2 ^ 32 := by
  intro b hb
  rcases List.mem_map.mp hb with ⟨⟨r, t⟩, hmem, rfl⟩
  have ht : t ∈ temps := (List.of_mem_zip hmem).2
  have hlen := natBytes_length_le 128 (bytesNat t) (h8 t ht)
  simp only [iEncrypt]
  rw [ecEncryptCred_length]
  omega

/-! ## Demo values used by witnesses -/

/-- A concrete private-capable identity (subject `"aaaaaaaa"`). -/
def demoA : Identity := ⟨List.replicate 8 97, [3], true⟩

/-- A second concrete private-capable identity (subject `"bbbbbbbb"`). -/
def demoB : Identity := ⟨List.replicate 8 98, [5], true⟩

/-! ## Claims -/

/-- Claim C2, amended: for every keypair and every NONEMPTY plaintext,
`getDecryptCredential` on the private-key instance applied to the output of
`getEncryptCredentials` on the matching public-key instance regenerates the
identical keystream and returns the original plaintext (the ephemeral
credential bounded so its public key fits the 2-byte length prefix).  The
empty plaintext is the exception recorded by the counterexample. -/
theorem claim_C2 (privArr tempCredential data : List Nat)
    (hd : data ≠ []) (ht : bytesNat tempCredential < 256 ^ 128) :
    ecStateDecrypt (ecFromPrivate privArr)
      (ecStateEncrypt (ecFromPublic (pubKeyOf (bytesNat privArr))) tempCredential data) =
      .ok data := by
  have hlen : (natBytes (bytesNat tempCredential)).length + 1 < 65536 := by
    have := natBytes_length_le 128 (bytesNat tempCredential) ht
    omega
  simp only [ecStateDecrypt, ecFromPrivate, ecStateEncrypt, ecFromPublic]
  exact ec_roundtrip (bytesNat privArr) tempCredential data hd hlen

/-- Claim C2, witness: a concrete keypair and plaintext round-trip. -/
theorem claim_C2_witness :
    ecStateDecrypt (ecFromPrivate [3])
      (ecStateEncrypt (ecFromPublic (pubKeyOf (bytesNat [3]))) [2] [10, 20, 30]) =
      .ok [10, 20, 30] :=
  claim_C2 [3] [2] [10, 20, 30] (by decide) (by decide)

/-- Claim C2, counterexample: with the EMPTY plaintext the decrypt side
rejects the encrypt side's own output as `invalid-ciphertext` (the
remaining buffer is not strictly longer than the declared key length), so
the claim does not hold for every plaintext. -/
theorem claim_C2_counterexample :
    ecStateDecrypt (ecFromPrivate [3])
      (ecStateEncrypt (ecFromPublic (pubKeyOf (bytesNat [3]))) [2] []) =
      .error "invalid-ciphertext" := by decide

/-- Claim C4: message `verify` errors with
`enigma-invalid-identity-for-verify` when no signer entry matches the
identity's fingerprint; on a match it returns the boolean verification
result, and a present-but-invalid signature gives the value `false`, not an
error. -/
theorem claim_C4 (u : UnlockedSt) (idn : Identity) (hc : u.canVerify = true) :
    (lookupPair (iFp idn) u.signers u.signatures = none →
      msgVerify u idn = .error "enigma-invalid-identity-for-verify") ∧
    (∀ sig, lookupPair (iFp idn) u.signers u.signatures = some sig →
      msgVerify u idn = .ok (iVerify idn u.plaintext sig) ∧
      (sig ≠ ecSign (iScalar idn) u.plaintext → msgVerify u idn = .ok false)) := by
  constructor
  · intro hnone
    simp [msgVerify, hc, hnone]
  · intro sig hsome
    have hv : msgVerify u idn = .ok (iVerify idn u.plaintext sig) := by
      simp [msgVerify, hc, hsome]
    refine ⟨hv, fun hne => ?_⟩
    have hfalse : iVerify idn u.plaintext sig = false := by
      by_cases hs : sig = []
      · simp [iVerify, ecVerifyWrap, ecdsaVerifyRaw, hs]
      · have hb : bytesNat (iPub idn).tail = iScalar idn := by
          simp [iPub, pubKeyOf, bytesNat_natBytes]
        simp [iVerify, ecVerifyWrap, ecdsaVerifyRaw, hs, hb, hne]
    rw [hv, hfalse]

/-- Claim C4, witness: a fingerprint-matched identity with a corrupted
signature obtains the value `false` from `verify`. -/
theorem claim_C4_witness :
    msgVerify ⟨[1], [iFp demoA], [[9]], true⟩ demoA = .ok false :=
  ((claim_C4 ⟨[1], [iFp demoA], [[9]], true⟩ demoA rfl).2 [9] (by decide)).2 (by decide)

/-- Claim C5, amended: for every private scalar and every input ciphertext
LONGER THAN TWO BYTES whose declared ephemeral-key length exceeds the
remaining buffer after the 2-byte prefix, `getDecryptCredential` fails with
the malformed-ciphertext error.  (A 2-byte input satisfying the premise is
instead rejected by the earlier `byteLength > 2` guard with
`invalid-parameter` — the counterexample.) -/
theorem claim_C5 (s : Nat) (ct : List Nat) (h1 : 2 < ct.length)
    (h2 : (ct.drop 2).length < decU16LE (ct.take 2)) :
    ecDecryptCred s ct = .error "invalid-ciphertext" := by
  simp only [ecDecryptCred]
  rw [if_neg (by omega), if_pos (by omega)]

/-- Claim C5, witness: a concrete over-declared ciphertext is rejected as
malformed. -/
theorem claim_C5_witness : ecDecryptCred 5 [9, 0, 1, 2, 3] = .error "invalid-ciphertext" :=
  claim_C5 5 [9, 0, 1, 2, 3] (by decide) (by decide)

/-- Claim C5, counterexample: the 2-byte ciphertext `[1, 0]` declares an
ephemeral-key length of 1 exceeding the empty remaining buffer, yet the
call fails with `invalid-parameter` (the `byteLength > 2` guard), not with
the malformed-ciphertext error — so the claim does not hold for EVERY such
input. -/
theorem claim_C5_counterexample :
    (List.drop 2 ([1, 0] : List Nat)).length < decU16LE (List.take 2 [1, 0]) ∧
    ecDecryptCred 5 [1, 0] = .error "invalid-parameter" ∧
    "invalid-parameter" ≠ "invalid-ciphertext" := by decide

/-- Claim C6 (code bug): with the algorithm option unspecified, `generate`
selects the default algorithm and produces a private-capable identity; but
with an UNKNOWN algorithm name the fallback branch of the source reads the
undefined identifiers `defaults` / `algorithmname` (a slip for
`config.defaultAlgorithmName`), so the call crashes with a `ReferenceError`
instead of falling back to the default as the spec states. -/
theorem claim_C6 :
    generateM (List.replicate 8 97) (some "SOMETHINGELSE") [7] =
      .error "ReferenceError: defaults is not defined" ∧
    generateM (List.replicate 8 97) none [7] =
      .ok ⟨List.replicate 8 97, "NECRAC128", [7], pubKeyOf 7,
        ecSign 7 (identityIdOf (pubKeyOf 7) (List.replicate 8 97)), true⟩ := by
  constructor
  · decide
  · decide

/-- Claim C7: EC `verify` on a key-holding instance returns the value
`false` for every signature that is not the valid one (malformed included)
rather than raising; an exception from the underlying verification is
caught and mapped to `false`. -/
theorem claim_C7 (s : Nat) (digest sig : List Nat) :
    (sig ≠ ecSign s digest → ecVerifyWrap (pubKeyOf s) digest sig = false) ∧
    (∀ e, ecdsaVerifyRaw (pubKeyOf s) digest sig = .error e →
      ecVerifyWrap (pubKeyOf s) digest sig = false) := by
  have hb : bytesNat (pubKeyOf s).tail = s := by
    simp [pubKeyOf, bytesNat_natBytes]
  constructor
  · intro hne
    by_cases hs : sig = []
    · simp [ecVerifyWrap, ecdsaVerifyRaw, hs]
    · simp [ecVerifyWrap, ecdsaVerifyRaw, hs, hb, hne]
  · intro e he
    simp [ecVerifyWrap, he]

/-- Claim C7, witness: a concrete malformed signature yields `false`. -/
theorem claim_C7_witness : ecVerifyWrap (pubKeyOf 3) [1] [9] = false :=
  (claim_C7 3 [1] [9]).1 (by decide)

/-- Claim C8: for any successful write-phase run, `done` is available
exactly when at least one `sign`/`encrypt` call happened; consequently a
clear-sign message on which `sign` is never called can never be finalized
(`done` stays revoked and errors). -/
theorem claim_C8 (pt mainKey : List Nat) (clearSign : Bool) (ops : List WOp) (st2 : MsgW)
    (h : applyOps (msgWrite pt clearSign mainKey) ops = .ok st2) :
    (st2.canDone = true ↔ ops ≠ []) ∧
    (clearSign = true → (∀ i, WOp.sgn i ∉ ops) →
      msgDone st2 = .error "enigma-unavailable-operation") := by
  rcases applyOps_ok_characterize ops _ st2 h with ⟨hnil, hne⟩
  constructor
  · constructor
    · intro hcd hopsnil
      rw [hnil hopsnil] at hcd
      simp [msgWrite] at hcd
    · exact hne
  · intro hcs hns
    rcases applyOps_no_sign_no_encrypt ops _ st2 (by simp [msgWrite, hcs]) hns h with ⟨hst, _⟩
    rw [hst]
    simp [msgDone, msgWrite]

/-- Claim C8, witness: the empty clear-sign run — `done` is unavailable
and finalization fails. -/
theorem claim_C8_witness :
    ((msgWrite [1] true [7]).canDone = true ↔ ([] : List WOp) ≠ []) ∧
    (true = true → (∀ i, WOp.sgn i ∉ ([] : List WOp)) →
      msgDone (msgWrite [1] true [7]) = .error "enigma-unavailable-operation") :=
  claim_C8 [1] [7] true [] (msgWrite [1] true [7]) (by decide)

/-- Claim C9: after 255 successful `sign` calls the `sign` capability is
revoked and the 256th call is rejected (no entry appended); likewise for
`encrypt` after 255 receivers. -/
theorem claim_C9 (pt mainKey : List Nat) (sids : List Identity)
    (rts : List (Identity × List Nat)) (a b : Identity) (t : List Nat)
    (hs : sids.length = 255) (hsp : ∀ i ∈ sids, i.isPriv = true)
    (hr : rts.length = 255) :
    (∃ st, signAll (msgWrite pt false mainKey) sids = .ok st ∧
      st.signers.length = 255 ∧
      msgSign st a = .error "enigma-unavailable-operation") ∧
    (∃ st, encryptAll (msgWrite pt false mainKey) rts = .ok st ∧
      st.receivers.length = 255 ∧
      msgEncrypt st b t = .error "enigma-unavailable-operation") := by
  have h1 := signAll_ok sids (msgWrite pt false mainKey) hsp (by simp [msgWrite])
    (by simp [msgWrite, hs])
  have h2 := encryptAll_ok rts (msgWrite pt false mainKey) (by simp [msgWrite])
    (by simp [msgWrite, hr])
  constructor
  · exact ⟨_, h1, by simp [msgWrite, hs], by simp [msgSign, msgWrite, hs]⟩
  · exact ⟨_, h2, by simp [msgWrite, hr], by simp [msgEncrypt, msgWrite, hr]⟩

/-- Claim C9, witness: 255 concrete sign and encrypt calls, then the 256th
of each rejected. -/
theorem claim_C9_witness :
    (∃ st, signAll (msgWrite [1] false [7]) (List.replicate 255 demoA) = .ok st ∧
      st.signers.length = 255 ∧
      msgSign st demoA = .error "enigma-unavailable-operation") ∧
    (∃ st, encryptAll (msgWrite [1] false [7]) (List.replicate 255 (demoA, [2])) = .ok st ∧
      st.receivers.length = 255 ∧
      msgEncrypt st demoA [2] = .error "enigma-unavailable-operation") :=
  claim_C9 [1] [7] (List.replicate 255 demoA) (List.replicate 255 (demoA, [2]))
    demoA demoA [2] (by simp)
    (by intro i hi; rw [List.eq_of_mem_replicate hi]; rfl) (by simp)

/-- Claim C3: `loadPrivate` fails with `enigma-invalid-pinkey` when the
symmetric unwrap of the stored secret under the supplied pin key fails,
fails with `enigma-identity-inconsistent` when the public key derived from
the unwrapped secret differs from the stored one, and never succeeds with a
private key that does not match the stored public key. -/
theorem claim_C3 (buf pinkey : List Nat) :
    (∀ d, deserializeIdentity buf = some d → subjectOk d.subject = true →
      ((symDecrypt pinkey (d.secret.getD []) = none →
        loadPrivateM buf pinkey = .error "enigma-invalid-pinkey") ∧
       (∀ sec, symDecrypt pinkey (d.secret.getD []) = some sec →
        pubKeyOf (bytesNat sec) ≠ d.publicK →
        loadPrivateM buf pinkey = .error "enigma-identity-inconsistent"))) ∧
    (∀ st d, deserializeIdentity buf = some d → loadPrivateM buf pinkey = .ok st →
      pubKeyOf (bytesNat st.secretBuf) = d.publicK ∧ st.publicKeyBuf = d.publicK) := by
  constructor
  · intro d hd hsubj
    constructor
    · intro hdec
      simp [loadPrivateM, hd, hsubj, hdec]
    · intro sec hdec hne
      simp [loadPrivateM, hd, hsubj, hdec, hne]
  · intro st d hd hok
    simp only [loadPrivateM, hd] at hok
    split at hok
    · exact absurd hok (by simp)
    · split at hok
      · exact absurd hok (by simp)
      · split at hok
        · exact absurd hok (by simp)
        · rename_i hpub
          split at hok
          · exact absurd hok (by simp)
          · injection hok with h2
            rw [← h2]
            exact ⟨not_not.mp hpub, rfl⟩

/-- Claim C3, witness: a concrete identity record whose secret was not
wrapped under the supplied pin key fails with `enigma-invalid-pinkey`. -/
theorem claim_C3_witness :
    loadPrivateM (serializeIdentity ⟨List.replicate 8 97, 0, [4, 3], some [9, 9, 9], [1]⟩) [5] =
      .error "enigma-invalid-pinkey" :=
  ((claim_C3 (serializeIdentity ⟨List.replicate 8 97, 0, [4, 3], some [9, 9, 9], [1]⟩) [5]).1
    ⟨List.replicate 8 97, 0, [4, 3], some [9, 9, 9], [1]⟩ (by decide) (by decide)).1 (by decide)

/-- Length bound extracted from a valid subject. -/
lemma subjectOk_length {l : List Nat} (h : subjectOk l = true) : l.length < 256 := by
  simp only [subjectOk, Bool.and_eq_true, decide_eq_true_eq] at h
  omega

/-- Claim C10: for every generated identity (with its random secret in the
representable range), `canLoadPrivate` applied to the output of
`exportPublic` returns `true`: the export writes a zero-length secret
field, and the presence test counts any decoded buffer — the empty one
included — as a present private key. -/
theorem claim_C10 (subject rand : List Nat) (st : IdState)
    (hgen : generateM subject none rand = .ok st)
    (hr : bytesNat rand < 256 ^ 250) :
    canLoadPrivateM (exportPublicM st) = .ok true := by
  unfold generateM at hgen
  split at hgen
  · exact absurd hgen (by simp)
  · rename_i hsubj
    have hsubjT : subjectOk subject = true := by
      simpa using hsubj
    simp only [Option.getD_none, getDef, defaultAlgorithmName, if_pos rfl] at hgen
    injection hgen with h2
    subst h2
    unfold exportPublicM canLoadPrivateM
    rw [deserializeIdentity_roundtrip
      ⟨subject, 0, pubKeyOf (bytesNat rand), some [],
        ecSign (bytesNat rand) (identityIdOf (pubKeyOf (bytesNat rand)) subject)⟩
      [] rfl (subjectOk_length hsubjT) (by simp)
      (by
        have := natBytes_length_le 250 (bytesNat rand) hr
        simp only [pubKeyOf, List.length_cons]
        omega)
      (by simp) (by simp [ecSign])]
    rfl

/-- Claim C10, witness: a concrete generated identity round-trips through
`exportPublic` into a `canLoadPrivate` verdict of `true`. -/
theorem claim_C10_witness :
    canLoadPrivateM (exportPublicM ⟨List.replicate 8 97, "NECRAC128", [7], pubKeyOf 7,
      ecSign 7 (identityIdOf (pubKeyOf 7) (List.replicate 8 97)), true⟩) = .ok true :=
  claim_C10 (List.replicate 8 97) [7]
    ⟨List.replicate 8 97, "NECRAC128", [7], pubKeyOf 7,
      ecSign 7 (identityIdOf (pubKeyOf 7) (List.replicate 8 97)), true⟩
    (by decide) (by decide)

/-- Claim C1: for every plaintext, every `N ≤ 255` private signing
identities with `0 < N + M`, and every `M ≤ 255` recipient identities (with
their ephemeral credentials), building the message with `write`, the
`sign`/`encrypt` calls and `done`, then reading the produced buffer with
`read` and — when `M > 0` — decrypting with one of the recipients, makes
`getPlaintext()` return exactly the original plaintext.  The side
conditions model real inputs: a nonempty random 64-byte content key,
buffers fitting their length fields, and 128-byte ephemeral credentials. -/
theorem claim_C1 (pt mainKey : List Nat) (sids rids : List Identity)
    (temps : List (List Nat)) (drid : Identity)
    (h1 : temps.length = rids.length)
    (h2 : sids.length ≤ 255) (h3 : rids.length ≤ 255)
    (h4 : 0 < sids.length + rids.length)
    (h5 : mainKey ≠ []) (h6 : pt.length < 2 ^ 20) (h7 : mainKey.length < 2 ^ 10)
    (h8 : ∀ t ∈ temps, bytesNat t < 256 ^ 128)
    (h9 : rids = [] ∨ (drid ∈ rids ∧ drid.isPriv = true))
    (h10 : ∀ i ∈ sids, i.isPriv = true) :
    ∃ buf, buildMessage pt mainKey false sids (rids.zip temps) = .ok buf ∧
      openMessage buf drid = .ok pt := by
  have hsign : signAll (msgWrite pt false mainKey) sids = .ok
      ⟨pt, mainKey, false, sids.map iFp, sids.map (fun i => iSign i pt), [], [],
        decide (sids.length < 255), true, !sids.isEmpty⟩ := by
    have h := signAll_ok sids (msgWrite pt false mainKey) h10 (by simp [msgWrite])
      (by simp [msgWrite]; omega)
    simpa [msgWrite] using h
  have hzlen : (rids.zip temps).length = rids.length := by
    rw [List.length_zip, h1, Nat.min_self]
  have hpbound : (serializePayload
      ⟨sids.map iFp, sids.map (fun i => iSign i pt), pt⟩).length < 2 ^ 31 := by
    rw [pser_length]
    omega
  rcases h9 with hrnil | ⟨hmem, hpriv⟩
  · -- no receivers: the payload travels compressed but unencrypted
    subst hrnil
    have htnil : temps = [] := by
      rw [List.length_nil] at h1
      exact List.length_eq_zero.mp h1
    subst htnil
    have hsne : sids ≠ [] := by
      intro hcon
      subst hcon
      simp at h4
    have hcd : (!sids.isEmpty) = true := by
      cases sids with
      | nil => exact absurd rfl hsne
      | cons a l => simp
    refine ⟨serializeEnvelope ⟨.lzw, [], [],
      compress (serializePayload ⟨sids.map iFp, sids.map (fun i => iSign i pt), pt⟩)⟩,
      ?_, ?_⟩
    · simp only [buildMessage, hsign, List.zip_nil_right, encryptAll, msgDone, hcd,
        Bool.not_true]
      simp [compress]
    · have henv : deserializeEnvelope (serializeEnvelope ⟨.lzw, [], [],
          compress (serializePayload
            ⟨sids.map iFp, sids.map (fun i => iSign i pt), pt⟩)⟩) =
          some ⟨.lzw, [], [],
            compress (serializePayload
              ⟨sids.map iFp, sids.map (fun i => iSign i pt), pt⟩)⟩ := by
        apply deserializeEnvelope_roundtrip
        · simp
        · simp
        · intro b hb
          simp at hb
        · intro b hb
          simp at hb
        · simp only [compress, List.length_cons]
          omega
      simp only [openMessage, msgRead, henv]
      rw [continueUnpack_msg sids pt h2 h6]
      simp
  · -- at least one receiver: the payload travels encrypted
    have hrne : rids ≠ [] := by
      intro hcon
      subst hcon
      simp at hmem
    have hrpos : 0 < rids.length := List.length_pos.mpr hrne
    have hencrypt : encryptAll
        ⟨pt, mainKey, false, sids.map iFp, sids.map (fun i => iSign i pt), [], [],
          decide (sids.length < 255), true, !sids.isEmpty⟩ (rids.zip temps) = .ok
        ⟨pt, mainKey, false, sids.map iFp, sids.map (fun i => iSign i pt),
          (rids.zip temps).map (fun p => iFp p.1),
          (rids.zip temps).map (fun p => iEncrypt p.1 p.2 mainKey),
          decide (sids.length < 255), decide ((rids.zip temps).length < 255),
          !sids.isEmpty || !(rids.zip temps).isEmpty⟩ := by
      have h := encryptAll_ok (rids.zip temps)
        ⟨pt, mainKey, false, sids.map iFp, sids.map (fun i => iSign i pt), [], [],
          decide (sids.length < 255), true, !sids.isEmpty⟩
        (by simp) (by simp [hzlen]; omega)
      simpa using h
    have hzne : (rids.zip temps) ≠ [] := by
      intro hcon
      rw [← List.length_eq_zero] at hcon
      omega
    have hcd : (!sids.isEmpty || !(rids.zip temps).isEmpty) = true := by
      cases hz : rids.zip temps with
      | nil => exact absurd hz hzne
      | cons a l => simp [hz]
    have hdlenpos : 0 < ((rids.zip temps).map (fun p => iEncrypt p.1 p.2 mainKey)).length := by
      simp only [List.length_map, hzlen]
      exact hrpos
    refine ⟨serializeEnvelope ⟨.lzw, (rids.zip temps).map (fun p => iFp p.1),
      (rids.zip temps).map (fun p => iEncrypt p.1 p.2 mainKey),
      symEncrypt mainKey (compress (serializePayload
        ⟨sids.map iFp, sids.map (fun i => iSign i pt), pt⟩))⟩, ?_, ?_⟩
    · simp only [buildMessage, hsign, hencrypt, msgDone, hcd]
      simp only [hdlenpos, if_pos]
      simp [hcd]
    · have henv : deserializeEnvelope (serializeEnvelope ⟨.lzw,
          (rids.zip temps).map (fun p => iFp p.1),
          (rids.zip temps).map (fun p => iEncrypt p.1 p.2 mainKey),
          symEncrypt mainKey (compress (serializePayload
            ⟨sids.map iFp, sids.map (fun i => iSign i pt), pt⟩))⟩) =
          some ⟨.lzw,
            (rids.zip temps).map (fun p => iFp p.1),
            (rids.zip temps).map (fun p => iEncrypt p.1 p.2 mainKey),
            symEncrypt mainKey (compress (serializePayload
              ⟨sids.map iFp, sids.map (fun i => iSign i pt), pt⟩))⟩ := by
        apply deserializeEnvelope_roundtrip
        · simp only [List.length_map, hzlen]
          omega
        · simp only [List.length_map, hzlen]
          omega
        · intro b hb
          rcases List.mem_map.mp hb with ⟨p, _, rfl⟩
          rw [iFp_length]
          norm_num
        · exact decryptors_item_bound rids temps mainKey h7 h8
        · simp only [symEncrypt, compress, List.length_append, List.length_cons]
          omega
      have hlockread : msgRead (serializeEnvelope ⟨.lzw,
          (rids.zip temps).map (fun p => iFp p.1),
          (rids.zip temps).map (fun p => iEncrypt p.1 p.2 mainKey),
          symEncrypt mainKey (compress (serializePayload
            ⟨sids.map iFp, sids.map (fun i => iSign i pt), pt⟩))⟩) =
          .ok (.locked ⟨(rids.zip temps).map (fun p => iFp p.1),
            (rids.zip temps).map (fun p => iEncrypt p.1 p.2 mainKey),
            .lzw,
            symEncrypt mainKey (compress (serializePayload
              ⟨sids.map iFp, sids.map (fun i => iSign i pt), pt⟩))⟩) := by
        simp only [msgRead, henv]
        rw [if_neg (by simp), if_pos (by simp only [List.length_map]; omega)]
      have hdec : msgDecrypt (.locked ⟨(rids.zip temps).map (fun p => iFp p.1),
          (rids.zip temps).map (fun p => iEncrypt p.1 p.2 mainKey),
          .lzw,
          symEncrypt mainKey (compress (serializePayload
            ⟨sids.map iFp, sids.map (fun i => iSign i pt), pt⟩))⟩) drid =
          .ok (.unlocked ⟨pt, sids.map iFp, sids.map (fun i => iSign i pt),
            !(sids.map iFp).isEmpty⟩) := by
        obtain ⟨r, t, hlook, hfp, htm⟩ := lookupPair_map_zip drid mainKey rids temps hmem h1
        have hconv : ((rids.zip temps).map (fun p => iFp p.1) = rids.map iFp) ∧
            ((rids.zip temps).map (fun p => iEncrypt p.1 p.2 mainKey) =
              List.zipWith (fun i tt => iEncrypt i tt mainKey) rids temps) :=
          ⟨map_fst_zipf iFp rids temps h1,
            map_zip_eq_zipWith (fun i tt => iEncrypt i tt mainKey) rids temps⟩
        have hid : iDecrypt drid (iEncrypt r t mainKey) = .ok mainKey := by
          have hscal : iScalar r = iScalar drid := iFp_inj_scalar hfp
          have hb := natBytes_length_le 128 (bytesNat t) (h8 t htm)
          simp only [iDecrypt, iEncrypt, iPub, hscal]
          exact ec_roundtrip (iScalar drid) t mainKey h5 (by omega)
        simp only [msgDecrypt, hpriv, hconv.1, hconv.2, hlook, hid,
          symDecrypt_symEncrypt]
        rw [if_neg (by simp)]
        exact continueUnpack_msg sids pt h2 h6
      simp only [openMessage, hlockread, hdec]

/-- Claim C1, witness: one signer, one recipient, a concrete plaintext —
built, finalized, read back, decrypted, and recovered. -/
theorem claim_C1_witness :
    ∃ buf, buildMessage [1, 2, 3] [7, 7] false [demoA] ([demoB].zip [[2]]) = .ok buf ∧
      openMessage buf demoB = .ok [1, 2, 3] :=
  claim_C1 [1, 2, 3] [7, 7] [demoA] [demoB] [[2]] demoB (by decide) (by decide)
    (by decide) (by decide) (by decide) (by decide) (by decide) (by decide)
    (Or.inr ⟨by decide, by decide⟩) (by decide)

end Enigma
